import Mathlib

/-!
# A verification development for the gkvlite `Collection` core

This file gives a shallow embedding of `collection.go` from the gkvlite
repository, together with models (from the specification) of the treap
algebra and reclamation helpers that live in the external `Store`
(`union`, `split`, `join`, `mkRootNodeLoc`, `reclaimNodes_unlocked`,
`flushNodes`), and proves the frozen claims about the code.

Modelling decisions:
* Go byte slices become `Option (List Nat)` — `none` is Go's `nil` slice,
  `some bs` a (possibly empty) slice; keys are compared with the
  lexicographic `byteCompare` (the `bytes.Compare` comparator suggested by
  the source's `KeyCompare` comment).
* Machine integers (`int32` priorities, `int64` refcounts) become `Int`;
  the quantities involved never approach overflow in the claims.
* Pointer identity of `rootNodeLoc`s is modelled with a heap
  `Nat → RootNodeLoc` plus an allocation counter: distinct allocations get
  distinct ids, so id equality is pointer identity.
* The model is in-memory: node and item reads never perform I/O, so the
  store-read error paths of the Go code are not reachable here.
-/

namespace Gkvlite

/-- An `Item`: key and value are Go byte slices (`none` = nil slice),
`priority` is the `int32` treap priority. Mirrors `Item` as used by
`collection.go`. -/
structure Item where
  key : Option (List Nat)
  val : Option (List Nat)
  priority : Int
deriving Repr, DecidableEq

/-- `Item.NumValBytes`: the serialized value size (0 for a nil value). -/
def Item.numValBytes (i : Item) : Nat := (i.val.getD []).length

/-- Key length in bytes (0 for a nil key). -/
def Item.numKeyBytes (i : Item) : Nat := (i.key.getD []).length

/-- The lexicographic byte comparator (`bytes.Compare`), the canonical
`KeyCompare` of the source's documentation. -/
def byteCompare : List Nat → List Nat → Ordering
  | [], [] => .eq
  | [], _ :: _ => .lt
  | _ :: _, [] => .gt
  | a :: as, b :: bs =>
    if a < b then .lt else if b < a then .gt else byteCompare as bs

theorem byteCompare_refl (k : List Nat) : byteCompare k k = .eq := by
  induction k with
  | nil => rfl
  | cons a as ih => simp [byteCompare, ih]

/-- The in-memory treap node: one item, the aggregate `numNodes` /
`numBytes` fields stored on the node (as in the Go `node` struct), and the
two child edges. An `empty` tree is a nil/empty `nodeLoc`. -/
inductive NTree where
  | empty : NTree
  | node (item : Item) (numNodes numBytes : Nat) (left right : NTree) : NTree
deriving Repr, DecidableEq

namespace NTree

/-- Stored `numNodes` aggregate of a subtree (0 for an empty edge). -/
def num : NTree → Nat
  | .empty => 0
  | .node _ nn _ _ _ => nn

/-- Stored `numBytes` aggregate of a subtree (0 for an empty edge). -/
def bytes : NTree → Nat
  | .empty => 0
  | .node _ _ nb _ _ => nb

/-- Structural size, used for termination of the treap algebra. -/
def tsize : NTree → Nat
  | .empty => 0
  | .node _ _ _ l r => 1 + tsize l + tsize r

end NTree

/-- `mkNode` with the aggregate fields recomputed from the children's
stored aggregates, as the store's treap algebra does. -/
def mkN (it : Item) (l r : NTree) : NTree :=
  .node it (1 + l.num + r.num)
    (it.numKeyBytes + it.numValBytes + l.bytes + r.bytes) l r

theorem tsize_mkN (it : Item) (l r : NTree) :
    (mkN it l r).tsize = 1 + l.tsize + r.tsize := rfl

/-- Modelled from the spec: `split(T, k)` of the external store
(`store.go` is not part of the sources). Partitions `T` into keys `< k`,
the lone node with key `= k` (returned as its item; the algorithm
distributes its children into the two sides), and keys `> k`, rebuilding
the uninvolved side with fresh nodes. Item keys are materialized with
`Option.getD []`; in this in-memory model item reads cannot fail. -/
def split : NTree → List Nat → NTree × Option Item × NTree
  | .empty, _ => (.empty, none, .empty)
  | .node it _ _ l r, k =>
    match byteCompare (it.key.getD []) k with
    | .eq => (l, some it, r)
    | .lt => (mkN it l (split r k).1, (split r k).2.1, (split r k).2.2)
    | .gt => ((split l k).1, (split l k).2.1, mkN it (split l k).2.2 r)

theorem split_tsize_left (t : NTree) (k : List Nat) :
    (split t k).1.tsize ≤ t.tsize := by
  induction t generalizing k with
  | empty => simp [split, NTree.tsize]
  | node it nn nb l r ihl ihr =>
    simp only [split]
    cases byteCompare (it.key.getD []) k with
    | eq => simp only [NTree.tsize]; omega
    | lt =>
      have := ihr k
      simp only [tsize_mkN, NTree.tsize]
      omega
    | gt =>
      have := ihl k
      simp only [NTree.tsize]
      omega

theorem split_tsize_right (t : NTree) (k : List Nat) :
    (split t k).2.2.tsize ≤ t.tsize := by
  induction t generalizing k with
  | empty => simp [split, NTree.tsize]
  | node it nn nb l r ihl ihr =>
    simp only [split]
    cases byteCompare (it.key.getD []) k with
    | eq => simp only [NTree.tsize]; omega
    | lt =>
      have := ihr k
      simp only [NTree.tsize]
      omega
    | gt =>
      have := ihl k
      simp only [tsize_mkN, NTree.tsize]
      omega

/-- Modelled from the spec: `union(A, B)` of the external store, where `B`
is the insert side. The root of whichever side has the strictly higher
priority wins (a deterministic side — `A` — on ties); the other side is
split on the winning key; an equal-key node coming from the insert side
supersedes the existing item (the new value wins), an equal-key node from
the existing side is superseded by the insert side's item. Aggregates are
recomputed on every fresh node. -/
def union : NTree → NTree → NTree
  | .empty, b => b
  | a, .empty => a
  | .node ia na ba la ra, .node ib nb bb lb rb =>
    if ib.priority > ia.priority then
      -- Insert side wins: split the existing tree on the winning key; the
      -- displaced equal-key node (if any) is superseded by `ib`.
      let s := split (.node ia na ba la ra) (ib.key.getD [])
      mkN ib (union s.1 lb) (union s.2.2 rb)
    else
      -- Existing side wins: split the insert side; an equal-key node from
      -- the insert side supersedes the existing item.
      let s := split (.node ib nb bb lb rb) (ia.key.getD [])
      mkN (s.2.1.getD ia) (union la s.1) (union ra s.2.2)
termination_by a b => a.tsize + b.tsize
decreasing_by
  · have h1 := split_tsize_left (NTree.node ia na ba la ra) (ib.key.getD [])
    simp only [NTree.tsize] at *
    omega
  · have h2 := split_tsize_right (NTree.node ia na ba la ra) (ib.key.getD [])
    simp only [NTree.tsize] at *
    omega
  · have h1 := split_tsize_left (NTree.node ib nb bb lb rb) (ia.key.getD [])
    simp only [NTree.tsize] at *
    omega
  · have h2 := split_tsize_right (NTree.node ib nb bb lb rb) (ia.key.getD [])
    simp only [NTree.tsize] at *
    omega

/-- Modelled from the spec: `join(L, R)` of the external store, for trees
where every key of `L` is below every key of `R`. The higher-priority
root wins (ties go to the left side); the adjacent inner subtrees are
joined recursively. -/
def tjoin : NTree → NTree → NTree
  | .empty, b => b
  | a, .empty => a
  | .node ia na ba la ra, .node ib nb bb lb rb =>
    if ia.priority ≥ ib.priority then
      mkN ia la (tjoin ra (.node ib nb bb lb rb))
    else
      mkN ib (tjoin (.node ia na ba la ra) lb) rb
termination_by a b => a.tsize + b.tsize
decreasing_by
  · simp only [NTree.tsize]; omega
  · simp only [NTree.tsize]; omega

/-- Errors surfaced by the collection operations. -/
inductive Err where
  | validation        -- "Item.Key/Val missing or too long" / bad priority
  | corrupt           -- "missing item after item.read() in GetItem()"
  | concurrentMutation  -- "concurrent mutation attempted" / during UnmarshalJSON
  | concurrentDelete  -- "concurrent delete, key: ..."
  | jsonParse         -- json.Unmarshal failure
  | panicChain        -- the rootCAS "chain already taken" panic
  | nilRoot           -- operation on a closed collection (Go: nil deref)
deriving Repr, DecidableEq

/-- The key-descent loop of `Collection.GetItem` (from the source),
specialized to the in-memory model: errors with `corrupt` when a
materialized item has a nil key, otherwise descends by `byteCompare`. -/
def getNTree : NTree → List Nat → Except Err (Option Item)
  | .empty, _ => .ok none
  | .node it _ _ l r, key =>
    match it.key with
    | none => .error .corrupt
    | some ik =>
      match byteCompare key ik with
      | .lt => getNTree l key
      | .gt => getNTree r key
      | .eq => .ok (some it)

/-- Every item in the tree has a non-nil key (true of every tree built
from validated inserts). -/
def WFTree : NTree → Bool
  | .empty => true
  | .node it _ _ l r => it.key.isSome && WFTree l && WFTree r

theorem union_empty_right (a : NTree) : union a .empty = a := by
  cases a <;> simp [union]

/-- Searching the union of any well-formed tree with a fresh singleton for
the singleton's key finds exactly the singleton's item: the insert-side
item supersedes any equal-key item of the existing tree. -/
theorem getNTree_union_single (a : NTree) (it : Item) (k : List Nat) (nb : Nat)
    (hk : it.key = some k) (hwf : WFTree a = true) :
    getNTree (union a (.node it 1 nb .empty .empty)) k = .ok (some it) := by
  induction a generalizing nb with
  | empty =>
    simp [union, getNTree, hk, byteCompare_refl]
  | node ia na ba la ra ihl ihr =>
    simp only [WFTree, Bool.and_eq_true] at hwf
    obtain ⟨⟨hks, hwl⟩, hwr⟩ := hwf
    obtain ⟨ka, hka⟩ := Option.isSome_iff_exists.mp hks
    rw [union]
    by_cases hp : it.priority > ia.priority
    · simp only [if_pos hp, union_empty_right]
      simp [mkN, getNTree, hk, byteCompare_refl]
    · simp only [if_neg hp, hka]
      rcases hcmp : byteCompare k ka with _ | _ | _
      · -- inserted key below this node's key: descend left
        simp only [split, hk, Option.getD_some, hcmp, union_empty_right]
        simp [mkN, getNTree, hka, hcmp, NTree.num, NTree.bytes]
        exact ihl _ hwl
      · -- equal keys: the insert-side middle supersedes this node's item
        simp only [split, hk, Option.getD_some, hcmp, union_empty_right]
        simp [mkN, getNTree, hk, byteCompare_refl]
      · -- inserted key above this node's key: descend right
        simp only [split, hk, Option.getD_some, hcmp, union_empty_right]
        simp [mkN, getNTree, hka, hcmp, NTree.num, NTree.bytes]
        exact ihr _ hwr

/-! ## The collection state model

`rootNodeLoc`s live behind pointers shared between the collection's `root`
field and callers' witnesses; we model them with a heap indexed by
allocation ids, so that id equality is Go pointer identity. -/

/-- The `rootNodeLoc` struct of `collection.go`. `rootTree` is the tree
hanging off the `root` nodeLoc, `rootLoc` its persisted file location (as
installed by `UnmarshalJSON`), and the two `reclaimLater` slots hold nodes
(represented by the subtree hanging off them). `chainedCollection` is
`true` when the Go field is non-nil (single-collection model). -/
structure RootNodeLoc where
  refs : Int
  rootTree : NTree
  rootLoc : Option (Nat × Nat)
  chainedCollection : Bool
  chainedRootNodeLoc : Option Nat
  reclaimLater0 : Option NTree
  reclaimLater1 : Option NTree
deriving Repr, DecidableEq

/-- The collection: a heap of allocated `rootNodeLoc`s, the published
`root` pointer (`none` = nil, i.e. never published or closed), and the
allocation counter. -/
structure CollState where
  heap : Nat → RootNodeLoc
  root : Option Nat
  nextR : Nat

/-- Pointwise heap update. -/
def updateHeap (s : CollState) (rid : Nat) (r : RootNodeLoc) : CollState :=
  { s with heap := fun j => if j = rid then r else s.heap j }

/-- Modelled from the spec: `mkRootNodeLoc` of the external store
allocates a fresh `rootNodeLoc` with `refs = 1` and no chain or reclaim
slots. -/
def mkRootNodeLocS (s : CollState) (t : NTree) (loc : Option (Nat × Nat)) :
    Nat × CollState :=
  (s.nextR,
   { updateHeap s s.nextR ⟨1, t, loc, false, none, none, none⟩ with
       nextR := s.nextR + 1 })

/-- Store a node in `reclaimLater[0]` of a rootNodeLoc. -/
def setReclaim0 (s : CollState) (rid : Nat) (n : Option NTree) : CollState :=
  updateHeap s rid { s.heap rid with reclaimLater0 := n }

/-- Store a node in `reclaimLater[1]` of a rootNodeLoc. -/
def setReclaim1 (s : CollState) (rid : Nat) (n : Option NTree) : CollState :=
  updateHeap s rid { s.heap rid with reclaimLater1 := n }

/-- `rootAddRef` on a known-published root id. -/
def bumpRef (s : CollState) (rid : Nat) : CollState :=
  updateHeap s rid { s.heap rid with refs := (s.heap rid).refs + 1 }

/-- Outcome of `rootCAS`: the boolean result, or the
"chain already taken" panic. -/
inductive CASResult where
  | ok | failed | panicked
deriving Repr, DecidableEq

/-- `Collection.rootCAS` (collection.go:346-368), run under `rootLock`:
compare the published root pointer with `prev`; on mismatch fail without
touching anything; otherwise install `next`, and if the displaced `prev`
is non-nil and still has `refs > 2`, chain `prev` to the new root
(panicking if a chain is already present) and give the new root one extra
reference owned by `prev`. -/
def rootCAS (s : CollState) (prev : Option Nat) (next : Nat) :
    CASResult × CollState :=
  if s.root ≠ prev then (.failed, s)
  else
    let s1 : CollState := { s with root := some next }
    match prev with
    | none => (.ok, s1)
    | some p =>
      if (s1.heap p).refs > 2 then
        if (s1.heap p).chainedCollection = true ∨
            (s1.heap p).chainedRootNodeLoc ≠ none then
          (.panicked, s1)
        else
          let s2 := updateHeap s1 p
            { s1.heap p with chainedCollection := true,
                             chainedRootNodeLoc := s1.root }
          let s3 := updateHeap s2 next
            { s2.heap next with refs := (s2.heap next).refs + 1 }
          (.ok, s3)
      else (.ok, s1)

/-- `Collection.rootDecRef` as it acts on the heap: decrement, and cascade
into the chained successor when the count is no longer positive and both
chain fields are set. Node reclamation itself does not touch the heap of
rootNodeLocs; it is modelled separately by the event-trace model below.
The fuel bounds the chain length (chains built by `rootCAS` are finite). -/
def heapDecRef : Nat → CollState → Nat → CollState
  | 0, s, _ => s
  | fuel + 1, s, rid =>
    let r' : RootNodeLoc := { s.heap rid with refs := (s.heap rid).refs - 1 }
    let s' := updateHeap s rid r'
    if r'.refs > 0 then s'
    else
      match r'.chainedRootNodeLoc with
      | some c => if r'.chainedCollection then heapDecRef fuel s' c else s'
      | none => s'

/-- `Collection.SetItem` (collection.go:119-145): validate the item,
take a reference on the current root, union it with a fresh singleton
node, allocate a new rootNodeLoc whose `reclaimLater[0]` holds the
singleton, publish it by `rootCAS`, and on success drop both the
collection's old reference and the caller's (the deferred decref). On a
lost CAS only the deferred decref runs and the concurrent-mutation error
is returned. -/
def SetItem (s : CollState) (item : Item) : Except Err Unit × CollState :=
  if item.key = none ∨ (item.key.getD []).length > 0xffff ∨
      (item.key.getD []).length = 0 ∨ item.val = none then
    (.error .validation, s)
  else if item.priority < 0 then
    (.error .validation, s)
  else
    match s.root with
    | none => (.error .nilRoot, s)
    | some rid =>
      let s0 := bumpRef s rid
      let tr := (s0.heap rid).rootTree
      let n := mkN item .empty .empty
      let r := union tr n
      let alloc := mkRootNodeLocS s0 r none
      let s2 := setReclaim0 alloc.2 alloc.1 (some n)
      let c := rootCAS s2 (some rid) alloc.1
      match c.1 with
      | .failed => (.error .concurrentMutation, heapDecRef (c.2.nextR + 1) c.2 rid)
      | .panicked => (.error .panicChain, c.2)
      | .ok =>
        let s4 := heapDecRef (c.2.nextR + 1) c.2 rid
        (.ok (), heapDecRef (s4.nextR + 1) s4 rid)

/-- `Collection.Set` (collection.go:148-150) with the random priority
made explicit (`rand.Int31()` is non-negative). -/
def SetOp (s : CollState) (k v : List Nat) (p : Int) :
    Except Err Unit × CollState :=
  SetItem s ⟨some k, some v, p⟩

/-- `Collection.Get` (collection.go:103-112) via the `GetItem` descent:
returns the found item's value (`none` both for an absent key and for a
nil stored value, as in the source). -/
def GetOp (s : CollState) (key : List Nat) : Except Err (Option (List Nat)) :=
  match s.root with
  | none => .error .nilRoot
  | some rid =>
    match getNTree ((s.heap rid).rootTree) key with
    | .error e => .error e
    | .ok none => .ok none
    | .ok (some i) => .ok i.val

/-- Events recorded by `Delete` for the reclamation bookkeeping. -/
inductive DEv where
  | markReclaimable (it : Item)
deriving Repr, DecidableEq

/-- `Collection.Delete` (collection.go:153-190): look the key up first
(absent → `(false, nil)`); split the snapshot tree on the key; an empty
middle is the concurrent-delete error; otherwise mark the middle node
reclaimable, join the outer parts, stash the non-empty split roots in the
new rootNodeLoc's `reclaimLater` slots, and publish by `rootCAS`. -/
def DeleteOp (s : CollState) (key : List Nat) :
    (Except Err Bool × CollState) × List DEv :=
  match s.root with
  | none => ((.error .nilRoot, s), [])
  | some rid =>
    let s0 := bumpRef s rid
    let tr := (s0.heap rid).rootTree
    match getNTree tr key with
    | .error e => ((.error e, heapDecRef (s0.nextR + 1) s0 rid), [])
    | .ok none => ((.ok false, heapDecRef (s0.nextR + 1) s0 rid), [])
    | .ok (some _) =>
      let sp := split tr key
      match sp.2.1 with
      | none => ((.error .concurrentDelete, heapDecRef (s0.nextR + 1) s0 rid), [])
      | some mi =>
        let j := tjoin sp.1 sp.2.2
        let alloc := mkRootNodeLocS s0 j none
        let s2 := if sp.1 ≠ .empty then setReclaim0 alloc.2 alloc.1 (some sp.1)
                  else alloc.2
        let s3 := if sp.2.2 ≠ .empty then setReclaim1 s2 alloc.1 (some sp.2.2)
                  else s2
        let c := rootCAS s3 (some rid) alloc.1
        match c.1 with
        | .failed =>
          ((.error .concurrentMutation, heapDecRef (c.2.nextR + 1) c.2 rid),
           [.markReclaimable mi])
        | .panicked => ((.error .panicChain, c.2), [.markReclaimable mi])
        | .ok =>
          let s5 := heapDecRef (c.2.nextR + 1) c.2 rid
          ((.ok true, heapDecRef (s5.nextR + 1) s5 rid),
           [.markReclaimable mi])

/-- `Collection.GetTotals` (collection.go:269-278): read the aggregate
fields off the root node; an empty root yields `(0, 0)` with no error. -/
def GetTotalsOp (s : CollState) : Except Err (Nat × Nat) :=
  match s.root with
  | none => .error .nilRoot
  | some rid =>
    match (s.heap rid).rootTree with
    | .empty => .ok (0, 0)
    | .node _ nn nb _ _ => .ok (nn, nb)

/-- `Collection.UnmarshalJSON` (collection.go:292-306), with the
`json.Unmarshal` outcome supplied by the external JSON layer: allocate a
rootNodeLoc around a location-only nodeLoc and install it with a `rootCAS`
whose `prev` witness is nil. -/
def UnmarshalJSONOp (s : CollState) (parsed : Except Unit (Nat × Nat)) :
    Except Err Unit × CollState :=
  match parsed with
  | .error _ => (.error .jsonParse, s)
  | .ok p =>
    let alloc := mkRootNodeLocS s .empty (some p)
    let c := rootCAS alloc.2 none alloc.1
    match c.1 with
    | .ok => (.ok (), c.2)
    | _ => (.error .concurrentMutation, c.2)

/-- In-order item list of a tree. -/
def inorderItems : NTree → List Item
  | .empty => []
  | .node it _ _ l r => inorderItems l ++ [it] ++ inorderItems r

/-- The aggregate invariant of the Node data model: every node's stored
`numNodes`/`numBytes` equal the recomputed sums over its subtree. -/
def aggOK : NTree → Bool
  | .empty => true
  | .node it nn nb l r =>
    (nn = 1 + l.num + r.num) &&
    (nb = it.numKeyBytes + it.numValBytes + l.bytes + r.bytes) &&
    aggOK l && aggOK r

/-- `sub.subtreeOf t`: the node `sub` is reachable from the root of `t`. -/
def subtreeOf (sub t : NTree) : Bool :=
  sub = t ||
    match t with
    | .empty => false
    | .node _ _ _ l r => subtreeOf sub l || subtreeOf sub r

/-! ## The reclamation trace model (`rootDecRef_unlocked`)

The chain of rootNodeLocs is represented inductively (the spec notes the
chain is a list), and the effect of a decref is recorded as an event
trace; node-pool frees are the events. -/

/-- A rootNodeLoc with its forward chain inlined, for the reclamation
cascade of `rootDecRef_unlocked`. -/
inductive RootRefI where
  | mk (refs : Int) (root : NTree) (chainedCollection : Bool)
       (chained : Option RootRefI)
       (reclaimLater0 reclaimLater1 : Option NTree)

/-- Events of a reclamation run. -/
inductive REv where
  | decRef (newRefs : Int)      -- a refcount was decremented to `newRefs`
  | freeNode (it : Item)        -- a tree node returned to the node pool
  | freeNodeLoc                 -- the root nodeLoc returned to its pool
  | freeRootNodeLoc             -- the rootNodeLoc returned to its pool
deriving Repr, DecidableEq

/-- Modelled from the spec: `reclaimNodes_unlocked` of the external store.
Walks the retired tree and hands in-memory nodes back to the node pool,
skipping (together with its subtree) any node that appears in the given
`reclaimLater` slots. -/
def reclaimNodesT : NTree → List (Option NTree) → List REv
  | .empty, _ => []
  | .node it nn nb l r, skip =>
    if skip.any (fun o => o = some (.node it nn nb l r)) then []
    else reclaimNodesT l skip ++ reclaimNodesT r skip ++ [.freeNode it]

/-- `Collection.rootDecRef_unlocked` (collection.go:385-401) as an event
trace: decrement; stop if the count is still positive; otherwise cascade
into the chained successor (when both chain fields are set), reclaim the
retired tree while skipping this rootNodeLoc's `reclaimLater` slots, drain
each non-nil slot, and release the root nodeLoc and the rootNodeLoc. -/
def rootDecRefU : RootRefI → List REv
  | .mk refs root cc ch rl0 rl1 =>
    .decRef (refs - 1) ::
      (if refs - 1 > 0 then []
       else
         (match cc, ch with
          | true, some c => rootDecRefU c
          | _, _ => []) ++
         reclaimNodesT root [rl0, rl1] ++
         (match rl0 with
          | some t => reclaimNodesT t []
          | none => []) ++
         (match rl1 with
          | some t => reclaimNodesT t []
          | none => []) ++
         [.freeNodeLoc, .freeRootNodeLoc])

/-! ## The persistence model (`Write` / `flushItems`)

Persisted-ness of each edge's nodeLoc is the only thing `flushItems`
inspects, so a tree of `hasLoc` flags suffices. -/

/-- A tree of nodeLoc edges for the flush path: `hasLoc` is whether the
edge's `Loc()` is non-empty (already persisted). -/
inductive PTree where
  | empty : PTree
  | node (hasLoc : Bool) (item : Item) (left right : PTree) : PTree
deriving Repr, DecidableEq

/-- `Collection.flushItems` (collection.go:329-344): skip a persisted (or
empty) nodeLoc entirely, otherwise flush the left subtree, write this
node's item, flush the right subtree. Returns the key-ordered list of
items written. -/
def flushItemsP : PTree → List Item
  | .empty => []
  | .node hasLoc it l r =>
    if hasLoc then [] else flushItemsP l ++ [it] ++ flushItemsP r

/-- Full in-order item list of a `PTree`, ignoring persisted-ness. -/
def pInorder : PTree → List Item
  | .empty => []
  | .node _ it l r => pInorder l ++ [it] ++ pInorder r

/-- No edge of the tree has a persisted location. -/
def noLocs : PTree → Bool
  | .empty => true
  | .node hasLoc _ l r => !hasLoc && noLocs l && noLocs r

/-- Events of `Collection.Write`. -/
inductive WEv where
  | writeItem (it : Item)   -- `node.item.write` during `flushItems`
  | flushNodes              -- the store's `flushNodes` on the root
  | writeRootRecord         -- a root record write (only `Store.Flush` does this)
deriving Repr, DecidableEq

/-- `Collection.Write` (collection.go:311-322): flush the items of the
current root's tree, then ask the store to flush the nodes. No root
record is written. -/
def writeOp (root : PTree) : List WEv :=
  (flushItemsP root).map .writeItem ++ [.flushNodes]

/-! ## Claims -/

/-- C1: `rootCAS` fails, leaving the state (in particular the current
root) untouched, exactly when the published root is not identical to the
caller's `prev` witness; otherwise it installs `next` as the root, and
when the displaced non-nil `prev` has `refs > 2` at the swap it either
panics (if a chain field is already set) or chains `prev` to `next` —
setting `prev.chainedCollection` and `prev.chainedRootNodeLoc = next` —
and increments `next`'s refcount by exactly one; with `refs ≤ 2` (or a
nil `prev`) it succeeds with no chaining and no refcount change. -/
theorem C1_rootCAS_spec (s : CollState) (prev : Option Nat) (next : Nat) :
    (s.root ≠ prev → rootCAS s prev next = (.failed, s)) ∧
    (s.root = prev →
      (rootCAS s prev next).2.root = some next ∧
      (prev = none → rootCAS s prev next = (.ok, { s with root := some next })) ∧
      (∀ p, prev = some p →
        (¬ (s.heap p).refs > 2 →
          rootCAS s prev next = (.ok, { s with root := some next })) ∧
        ((s.heap p).refs > 2 →
          (((s.heap p).chainedCollection = true ∨
             (s.heap p).chainedRootNodeLoc ≠ none) →
            (rootCAS s prev next).1 = .panicked) ∧
          ((s.heap p).chainedCollection = false ∧
             (s.heap p).chainedRootNodeLoc = none →
            (rootCAS s prev next).1 = .ok ∧
            ((rootCAS s prev next).2.heap p).chainedCollection = true ∧
            ((rootCAS s prev next).2.heap p).chainedRootNodeLoc = some next ∧
            ((rootCAS s prev next).2.heap next).refs =
              (s.heap next).refs + 1)))) := by
  constructor
  · intro h
    simp [rootCAS, h]
  · intro h
    refine ⟨?_, ?_, ?_⟩
    · cases prev with
      | none => simp [rootCAS, h]
      | some p =>
        simp only [rootCAS, h, ne_eq, not_true_eq_false, if_false]
        split
        · split
          · rfl
          · rfl
        · rfl
    · rintro rfl
      simp [rootCAS, h]
    · rintro p rfl
      have hh : ({ s with root := some p } : CollState).heap = s.heap := rfl
      constructor
      · intro h2
        simp only [rootCAS, h, ne_eq, not_true_eq_false, if_false]
        rw [if_neg (by simpa [hh] using h2)]
      · intro h2
        constructor
        · intro h3
          simp only [rootCAS, h, ne_eq, not_true_eq_false, if_false]
          rw [if_pos (by simpa [hh] using h2)]
          rw [if_pos (by simpa [hh] using h3)]
        · rintro ⟨h3, h4⟩
          simp only [rootCAS, h, ne_eq, not_true_eq_false, if_false]
          rw [if_pos (by simpa [hh] using h2)]
          rw [if_neg (by simp [hh, h3, h4])]
          by_cases hpn : p = next
          · subst hpn
            simp [updateHeap]
          · simp [updateHeap, hpn, Ne.symm hpn]

/-- Witness for C1: a concrete successful, chaining CAS. The displaced
root (id 0, five references, no chain) is chained to the freshly installed
id 1, whose refcount rises from 1 to 2. -/
theorem C1_rootCAS_spec_witness :
    (rootCAS ⟨fun _ => ⟨if 0 = 0 then 5 else 1, .empty, none, false, none,
        none, none⟩, some 0, 2⟩ (some 0) 1).1 = .ok ∧
    ((rootCAS ⟨fun _ => ⟨5, .empty, none, false, none, none, none⟩,
        some 0, 2⟩ (some 0) 1).2.heap 0).chainedRootNodeLoc = some 1 := by
  have h := C1_rootCAS_spec
    ⟨fun _ => ⟨5, .empty, none, false, none, none, none⟩, some 0, 2⟩
    (some 0) 1
  have h2 := (((h.2 rfl).2.2 0 rfl).2 (by decide)).2 ⟨rfl, rfl⟩
  exact ⟨by simpa using h2.1, by simpa using h2.2.2.1⟩

/-- C2: `rootDecRef_unlocked` records the decrement first and, exactly
when the new count is not above zero, runs reclamation in order: cascade
into the chained successor (only when both chain fields are set), reclaim
the retired tree skipping the nodes in this rootNodeLoc's `reclaimLater`
slots, drain each non-nil slot, then release the root nodeLoc and the
rootNodeLoc to their pools; with the count still positive nothing else
happens. -/
theorem C2_rootDecRef_spec (refs : Int) (root : NTree) (cc : Bool)
    (ch : Option RootRefI) (rl0 rl1 : Option NTree) :
    ((rootDecRefU (.mk refs root cc ch rl0 rl1)).take 1 =
      [.decRef (refs - 1)]) ∧
    (refs - 1 > 0 →
      rootDecRefU (.mk refs root cc ch rl0 rl1) = [.decRef (refs - 1)]) ∧
    (refs - 1 ≤ 0 →
      (∀ c, cc = true → ch = some c →
        rootDecRefU (.mk refs root cc ch rl0 rl1) =
          .decRef (refs - 1) ::
            (rootDecRefU c ++
             reclaimNodesT root [rl0, rl1] ++
             (rl0.elim [] (fun t => reclaimNodesT t [])) ++
             (rl1.elim [] (fun t => reclaimNodesT t [])) ++
             [.freeNodeLoc, .freeRootNodeLoc])) ∧
      ((cc = false ∨ ch = none) →
        rootDecRefU (.mk refs root cc ch rl0 rl1) =
          .decRef (refs - 1) ::
            (reclaimNodesT root [rl0, rl1] ++
             (rl0.elim [] (fun t => reclaimNodesT t [])) ++
             (rl1.elim [] (fun t => reclaimNodesT t [])) ++
             [.freeNodeLoc, .freeRootNodeLoc]))) := by
  refine ⟨by rw [rootDecRefU.eq_def]; simp,
    fun hpos => by rw [rootDecRefU.eq_def]; simp [hpos], ?_⟩
  intro hle
  have hneg : ¬ (refs - 1 > 0) := by omega
  constructor
  · rintro c rfl rfl
    rw [rootDecRefU.eq_def]
    cases rl0 <;> cases rl1 <;> simp [hneg, Option.elim, List.append_assoc]
  · intro hcc
    rcases hcc with rfl | rfl
    · rw [rootDecRefU.eq_def]
      cases ch <;> cases rl0 <;> cases rl1 <;>
        simp [hneg, Option.elim, List.append_assoc]
    · rw [rootDecRefU.eq_def]
      cases cc <;> cases rl0 <;> cases rl1 <;>
        simp [hneg, Option.elim, List.append_assoc]

/-- Witness for C2: a concrete unchained rootNodeLoc whose count reaches
zero; the trace is the decrement, the tree walk skipping the slotted node,
the slot drain, and the two pool releases. -/
theorem C2_rootDecRef_spec_witness :
    rootDecRefU (.mk 1 (.node ⟨some [1], some [2], 0⟩ 1 2 .empty .empty)
        false none (some (.node ⟨some [3], some [4], 0⟩ 1 2 .empty .empty))
        none) =
      .decRef 0 ::
        (reclaimNodesT (.node ⟨some [1], some [2], 0⟩ 1 2 .empty .empty)
          [some (.node ⟨some [3], some [4], 0⟩ 1 2 .empty .empty), none] ++
         reclaimNodesT (.node ⟨some [3], some [4], 0⟩ 1 2 .empty .empty) [] ++
         [] ++
         [.freeNodeLoc, .freeRootNodeLoc]) := by
  have h := (C2_rootDecRef_spec 1
    (.node ⟨some [1], some [2], 0⟩ 1 2 .empty .empty) false none
    (some (.node ⟨some [3], some [4], 0⟩ 1 2 .empty .empty)) none).2.2
    (by decide)
  simpa using h.2 (Or.inl rfl)

/-- When neither validation test of `SetItem` fires, whatever else happens
the returned error is never the validation error. -/
theorem setItem_no_validation_error (s : CollState) (item : Item)
    (h1 : ¬ (item.key = none ∨ (item.key.getD []).length > 0xffff ∨
      (item.key.getD []).length = 0 ∨ item.val = none))
    (h2 : ¬ item.priority < 0) :
    (SetItem s item).1 ≠ .error .validation := by
  simp only [SetItem, if_neg h1, if_neg h2]
  cases s.root with
  | none => simp
  | some rid =>
    dsimp only
    split <;> simp

/-- C6: `SetItem` returns the validation error — leaving the collection
untouched — exactly when the key is nil or empty or longer than 65535
bytes, the value is nil, or the priority is negative. (The witness checks
that a key of length exactly 65535 passes validation.) -/
theorem C6_setItem_validation (s : CollState) (item : Item) :
    ((SetItem s item).1 = .error .validation ↔
      (item.key = none ∨ (item.key.getD []).length = 0 ∨
       (item.key.getD []).length > 65535 ∨ item.val = none ∨
       item.priority < 0)) ∧
    ((item.key = none ∨ (item.key.getD []).length = 0 ∨
      (item.key.getD []).length > 65535 ∨ item.val = none ∨
      item.priority < 0) → (SetItem s item).2 = s) := by
  by_cases h1 : item.key = none ∨ (item.key.getD []).length > 0xffff ∨
      (item.key.getD []).length = 0 ∨ item.val = none
  · refine ⟨⟨fun _ => ?_, fun _ => by simp only [SetItem, if_pos h1]⟩,
      fun _ => by simp only [SetItem, if_pos h1]⟩
    rcases h1 with h | h | h | h
    · exact Or.inl h
    · exact Or.inr (Or.inr (Or.inl h))
    · exact Or.inr (Or.inl h)
    · exact Or.inr (Or.inr (Or.inr (Or.inl h)))
  · by_cases h2 : item.priority < 0
    · exact ⟨⟨fun _ => Or.inr (Or.inr (Or.inr (Or.inr h2))),
        fun _ => by simp only [SetItem, if_neg h1, if_pos h2]⟩,
        fun _ => by simp only [SetItem, if_neg h1, if_pos h2]⟩
    · constructor
      · constructor
        · intro h
          exact absurd h (setItem_no_validation_error s item h1 h2)
        · intro hc
          exfalso
          push_neg at h1
          rcases hc with h | h | h | h | h
          · exact h1.1 h
          · exact h1.2.2.1 h
          · omega
          · exact h1.2.2.2 h
          · exact h2 h
      · intro hc
        exfalso
        push_neg at h1
        rcases hc with h | h | h | h | h
        · exact h1.1 h
        · exact h1.2.2.1 h
        · omega
        · exact h1.2.2.2 h
        · exact h2 h

set_option maxRecDepth 4000 in
/-- Witness for C6: an item with a key of length exactly 65535 is
accepted (no validation error), and an item with an empty key is rejected
with the state unchanged. -/
theorem C6_setItem_validation_witness :
    (SetItem ⟨fun _ => ⟨1, .empty, none, false, none, none, none⟩, some 0, 1⟩
        ⟨some (List.replicate 65535 7), some [1], 3⟩).1 ≠
      .error .validation ∧
    (SetItem ⟨fun _ => ⟨1, .empty, none, false, none, none, none⟩, some 0, 1⟩
        ⟨some [], some [1], 3⟩).1 = .error .validation := by
  constructor
  · intro h
    have hiff := (C6_setItem_validation
      ⟨fun _ => ⟨1, .empty, none, false, none, none, none⟩, some 0, 1⟩
      ⟨some (List.replicate 65535 7), some [1], 3⟩).1
    have hc := hiff.mp h
    rcases hc with hx | hx | hx | hx | hx
    · exact Option.noConfusion hx
    · rw [Option.getD_some, List.length_replicate] at hx; omega
    · rw [Option.getD_some, List.length_replicate] at hx; omega
    · exact Option.noConfusion hx
    · exact absurd hx (by norm_num)
  · have hiff := (C6_setItem_validation
      ⟨fun _ => ⟨1, .empty, none, false, none, none, none⟩, some 0, 1⟩
      ⟨some [], some [1], 3⟩).1
    exact hiff.mpr (Or.inr (Or.inl rfl))

/-- Flushing writes a (key-ordered) subsequence of the full in-order item
list: skipping persisted subtrees never reorders items. -/
theorem flushItemsP_sublist (t : PTree) :
    (flushItemsP t).Sublist (pInorder t) := by
  induction t with
  | empty => simp [flushItemsP, pInorder]
  | node hasLoc it l r ihl ihr =>
    by_cases h : hasLoc = true
    · simp [flushItemsP, h, pInorder]
    · simp only [flushItemsP, pInorder, if_neg h]
      exact List.Sublist.append (List.Sublist.append ihl (List.Sublist.refl _))
        ihr

/-- On a fully unpersisted tree the flush writes every item in order. -/
theorem flushItemsP_noLocs (t : PTree) (h : noLocs t = true) :
    flushItemsP t = pInorder t := by
  induction t with
  | empty => rfl
  | node hasLoc it l r ihl ihr =>
    simp only [noLocs, Bool.and_eq_true, Bool.not_eq_true'] at h
    obtain ⟨⟨h0, hl⟩, hr⟩ := h
    simp [flushItemsP, pInorder, h0, ihl hl, ihr hr]

/-- C8: `Write` flushes items depth-first in key order — for each
unpersisted node, the left subtree's items, the node's own item, then the
right subtree's items, skipping persisted subtrees entirely — and only
then asks the store to write the nodes; it writes no root records. The
item sequence is a subsequence of the in-order item list, and equals it
when nothing is persisted yet; a persisted root suppresses all item
writes. -/
theorem C8_write_spec (t : PTree) :
    writeOp t = (flushItemsP t).map WEv.writeItem ++ [.flushNodes] ∧
    WEv.writeRootRecord ∉ writeOp t ∧
    (flushItemsP t).Sublist (pInorder t) ∧
    (noLocs t = true → flushItemsP t = pInorder t) ∧
    (∀ it l r, t = .node true it l r → flushItemsP t = []) ∧
    (∀ it l r, t = .node false it l r →
      flushItemsP t = flushItemsP l ++ [it] ++ flushItemsP r) := by
  refine ⟨rfl, ?_, flushItemsP_sublist t, flushItemsP_noLocs t, ?_, ?_⟩
  · simp only [writeOp, List.mem_append, List.mem_map, List.mem_singleton]
    rintro (⟨it, _, h⟩ | h) <;> exact WEv.noConfusion h
  · rintro it l r rfl
    simp [flushItemsP]
  · rintro it l r rfl
    simp [flushItemsP]

/-- Witness for C8: a concrete mixed tree — a persisted left subtree is
skipped entirely while the unpersisted spine is flushed in key order
before the node flush. -/
theorem C8_write_spec_witness :
    writeOp (.node false ⟨some [2], some [2], 0⟩
        (.node true ⟨some [1], some [1], 0⟩ .empty .empty)
        (.node false ⟨some [3], some [3], 0⟩ .empty .empty)) =
      [.writeItem ⟨some [2], some [2], 0⟩, .writeItem ⟨some [3], some [3], 0⟩,
       .flushNodes] ∧
    flushItemsP (.node false ⟨some [1], some [1], 0⟩ .empty
        (.node false ⟨some [2], some [2], 0⟩ .empty .empty)) =
      pInorder (.node false ⟨some [1], some [1], 0⟩ .empty
        (.node false ⟨some [2], some [2], 0⟩ .empty .empty)) := by
  constructor
  · have h := (C8_write_spec (.node false ⟨some [2], some [2], 0⟩
      (.node true ⟨some [1], some [1], 0⟩ .empty .empty)
      (.node false ⟨some [3], some [3], 0⟩ .empty .empty))).1
    rw [h]
    rfl
  · exact (C8_write_spec _).2.2.2.1 (by decide)

/-- The stored aggregates of an `aggOK` tree are the in-order item count
and total key-plus-value byte size. -/
theorem aggOK_counts (t : NTree) (h : aggOK t = true) :
    t.num = (inorderItems t).length ∧
    t.bytes = ((inorderItems t).map
      (fun i => i.numKeyBytes + i.numValBytes)).sum := by
  induction t with
  | empty => simp [inorderItems, NTree.num, NTree.bytes]
  | node it nn nb l r ihl ihr =>
    simp only [aggOK, Bool.and_eq_true, decide_eq_true_eq] at h
    obtain ⟨⟨⟨h1, h2⟩, h3⟩, h4⟩ := h
    have hl := ihl h3
    have hr := ihr h4
    constructor
    · have hh : (NTree.node it nn nb l r).num = nn := rfl
      rw [hh, h1, hl.1, hr.1]
      simp only [inorderItems, List.length_append, List.length_singleton]
      omega
    · have hh : (NTree.node it nn nb l r).bytes = nb := rfl
      rw [hh, h2, hl.2, hr.2]
      simp only [inorderItems, List.map_append, List.sum_append,
        List.map_singleton, List.sum_singleton]
      omega

/-- C9: `GetTotals` reads only the root node's aggregate fields: on an
empty collection it returns `(0, 0)` with no error, and otherwise the
root's `numNodes`/`numBytes`, which — when the tree satisfies the Node
aggregate invariant — equal the item count and total key-plus-value bytes
of a full in-order visit. -/
theorem C9_getTotals_spec (s : CollState) (rid : Nat)
    (hroot : s.root = some rid) :
    ((s.heap rid).rootTree = .empty → GetTotalsOp s = .ok (0, 0)) ∧
    (∀ it nn nb l r, (s.heap rid).rootTree = .node it nn nb l r →
      GetTotalsOp s = .ok (nn, nb)) ∧
    (aggOK (s.heap rid).rootTree = true →
      GetTotalsOp s = .ok ((inorderItems (s.heap rid).rootTree).length,
        ((inorderItems (s.heap rid).rootTree).map
          (fun i => i.numKeyBytes + i.numValBytes)).sum)) := by
  refine ⟨fun h => by simp [GetTotalsOp, hroot, h], ?_, ?_⟩
  · intro it nn nb l r h
    simp [GetTotalsOp, hroot, h]
  · intro h
    cases ht : (s.heap rid).rootTree with
    | empty => simp [GetTotalsOp, hroot, ht, inorderItems]
    | node it nn nb l r =>
      rw [ht] at h
      have h2 := aggOK_counts _ h
      simp only [NTree.num, NTree.bytes] at h2
      simp only [GetTotalsOp, hroot, ht]
      exact congrArg Except.ok (by rw [Prod.mk.injEq]; exact ⟨h2.1, h2.2⟩)

/-- Witness for C9: the spec's three-item scenario — keys `a`,`b`,`c` with
one-byte values — where `GetTotals` returns `(3, 6)`, matching the full
visit; and an empty collection returning `(0, 0)`. -/
theorem C9_getTotals_spec_witness :
    GetTotalsOp ⟨fun _ => ⟨1,
      .node ⟨some [98], some [2], 5⟩ 3 6
        (.node ⟨some [97], some [1], 1⟩ 1 2 .empty .empty)
        (.node ⟨some [99], some [3], 2⟩ 1 2 .empty .empty),
      none, false, none, none, none⟩, some 0, 1⟩ = .ok (3, 6) ∧
    GetTotalsOp ⟨fun _ => ⟨1, .empty, none, false, none, none, none⟩,
      some 0, 1⟩ = .ok (0, 0) := by
  constructor
  · have h := (C9_getTotals_spec ⟨fun _ => ⟨1,
      .node ⟨some [98], some [2], 5⟩ 3 6
        (.node ⟨some [97], some [1], 1⟩ 1 2 .empty .empty)
        (.node ⟨some [99], some [3], 2⟩ 1 2 .empty .empty),
      none, false, none, none, none⟩, some 0, 1⟩ 0 rfl).2.2 (by decide)
    rw [h]
    rfl
  · exact (C9_getTotals_spec ⟨fun _ => ⟨1, .empty, none, false, none, none,
      none⟩, some 0, 1⟩ 0 rfl).1 rfl

/-- C10: `UnmarshalJSON` installs the decoded location through a CAS with
a nil `prev` witness: on a collection whose root is published it fails
with an error and leaves the published root unchanged; on a never-
published (or closed) collection it installs a fresh rootNodeLoc carrying
the decoded location. -/
theorem C10_unmarshal_spec (s : CollState) (parsed : Except Unit (Nat × Nat)) :
    (∀ p r, parsed = .ok p → s.root = some r →
      (UnmarshalJSONOp s parsed).1 = .error .concurrentMutation ∧
      (UnmarshalJSONOp s parsed).2.root = some r) ∧
    (∀ p, parsed = .ok p → s.root = none →
      (UnmarshalJSONOp s parsed).1 = .ok () ∧
      (UnmarshalJSONOp s parsed).2.root = some s.nextR ∧
      ((UnmarshalJSONOp s parsed).2.heap s.nextR).rootLoc = some p ∧
      ((UnmarshalJSONOp s parsed).2.heap s.nextR).refs = 1) := by
  constructor
  · rintro p r rfl hroot
    simp [UnmarshalJSONOp, rootCAS, mkRootNodeLocS, updateHeap, hroot]
  · rintro p rfl hroot
    simp [UnmarshalJSONOp, rootCAS, mkRootNodeLocS, updateHeap, hroot]

/-- Witness for C10: on a published collection the decoded location is
rejected and the root stays; on a closed one it is installed. -/
theorem C10_unmarshal_spec_witness :
    (UnmarshalJSONOp ⟨fun _ => ⟨1, .empty, none, false, none, none, none⟩,
        some 0, 1⟩ (.ok (16, 32))).1 = .error .concurrentMutation ∧
    (UnmarshalJSONOp ⟨fun _ => ⟨1, .empty, none, false, none, none, none⟩,
        some 0, 1⟩ (.ok (16, 32))).2.root = some 0 ∧
    (UnmarshalJSONOp ⟨fun _ => ⟨1, .empty, none, false, none, none, none⟩,
        none, 1⟩ (.ok (16, 32))).1 = .ok () := by
  have h1 := (C10_unmarshal_spec ⟨fun _ => ⟨1, .empty, none, false, none,
    none, none⟩, some 0, 1⟩ (.ok (16, 32))).1 (16, 32) 0 rfl rfl
  have h2 := (C10_unmarshal_spec ⟨fun _ => ⟨1, .empty, none, false, none,
    none, none⟩, none, 1⟩ (.ok (16, 32))).2 (16, 32) rfl rfl
  exact ⟨h1.1, h1.2, h2.1⟩

/-! ### State bookkeeping lemmas -/

theorem updateHeap_heap_same (s : CollState) (rid : Nat) (r : RootNodeLoc) :
    (updateHeap s rid r).heap rid = r := by
  simp [updateHeap]

theorem updateHeap_heap_other (s : CollState) (rid : Nat) (r : RootNodeLoc)
    (j : Nat) (h : j ≠ rid) : (updateHeap s rid r).heap j = s.heap j := by
  simp [updateHeap, h]

theorem heapDecRef_root (f : Nat) (s : CollState) (rid : Nat) :
    (heapDecRef f s rid).root = s.root := by
  induction f generalizing s rid with
  | zero => rfl
  | succ f ih =>
    simp only [heapDecRef]
    split
    · rfl
    · split
      · split
        · exact ih _ _
        · rfl
      · rfl

theorem heapDecRef_nextR (f : Nat) (s : CollState) (rid : Nat) :
    (heapDecRef f s rid).nextR = s.nextR := by
  induction f generalizing s rid with
  | zero => rfl
  | succ f ih =>
    simp only [heapDecRef]
    split
    · rfl
    · split
      · split
        · exact ih _ _
        · rfl
      · rfl

/-- A decref whose count stays positive, or whose rootNodeLoc has no
chained successor, only decrements that rootNodeLoc's count. -/
theorem heapDecRef_step (f : Nat) (s : CollState) (rid : Nat)
    (h : (s.heap rid).refs - 1 > 0 ∨ (s.heap rid).chainedRootNodeLoc = none) :
    heapDecRef (f + 1) s rid =
      updateHeap s rid { s.heap rid with refs := (s.heap rid).refs - 1 } := by
  by_cases hpos : (s.heap rid).refs - 1 > 0
  · simp only [heapDecRef]
    rw [if_pos hpos]
  · have hch : (s.heap rid).chainedRootNodeLoc = none := h.resolve_left hpos
    simp only [heapDecRef]
    rw [if_neg hpos, hch]

theorem bumpRef_root (s : CollState) (rid : Nat) :
    (bumpRef s rid).root = s.root := rfl

theorem bumpRef_nextR (s : CollState) (rid : Nat) :
    (bumpRef s rid).nextR = s.nextR := rfl

theorem bumpRef_heap_same (s : CollState) (rid : Nat) :
    (bumpRef s rid).heap rid =
      { s.heap rid with refs := (s.heap rid).refs + 1 } :=
  updateHeap_heap_same s rid _

theorem bumpRef_heap_other (s : CollState) (rid j : Nat) (h : j ≠ rid) :
    (bumpRef s rid).heap j = s.heap j :=
  updateHeap_heap_other s rid _ j h

/-- A `rootCAS` whose witness matches the published root never fails. -/
theorem rootCAS_not_failed (s : CollState) (prev : Option Nat) (next : Nat)
    (h : s.root = prev) : (rootCAS s prev next).1 ≠ .failed := by
  simp only [rootCAS, h, ne_eq, not_true_eq_false, if_false]
  cases prev with
  | none => simp
  | some p =>
    dsimp only
    split
    · split
      · simp
      · simp
    · simp

/-- Full characterization of a successful, non-panicking `rootCAS` that
installs a fresh id over an unchained displaced root. -/
theorem rootCAS_ok_state (s : CollState) (rid next : Nat)
    (hne : next ≠ rid) (h : s.root = some rid)
    (hnc : (s.heap rid).chainedCollection = false)
    (hnr : (s.heap rid).chainedRootNodeLoc = none) :
    (rootCAS s (some rid) next).1 = .ok ∧
    (rootCAS s (some rid) next).2.root = some next ∧
    (rootCAS s (some rid) next).2.nextR = s.nextR ∧
    ((rootCAS s (some rid) next).2.heap rid).refs = (s.heap rid).refs ∧
    ((rootCAS s (some rid) next).2.heap rid).chainedRootNodeLoc =
      (if (s.heap rid).refs > 2 then some next else none) ∧
    ((rootCAS s (some rid) next).2.heap next).rootTree =
      (s.heap next).rootTree ∧
    ((rootCAS s (some rid) next).2.heap next).reclaimLater0 =
      (s.heap next).reclaimLater0 ∧
    ((rootCAS s (some rid) next).2.heap next).reclaimLater1 =
      (s.heap next).reclaimLater1 ∧
    ((rootCAS s (some rid) next).2.heap next).refs ≥ (s.heap next).refs := by
  have hh : ({ s with root := some next } : CollState).heap = s.heap := rfl
  by_cases h2 : (s.heap rid).refs > 2
  · simp only [rootCAS, h, ne_eq, not_true_eq_false, if_false]
    rw [if_pos (by simpa [hh] using h2), if_neg (by simp [hh, hnc, hnr])]
    refine ⟨rfl, rfl, rfl, ?_, ?_, ?_, ?_, ?_, ?_⟩ <;>
      simp [updateHeap, hne, Ne.symm hne, h2]
  · simp only [rootCAS, h, ne_eq, not_true_eq_false, if_false]
    rw [if_neg (by simpa [hh] using h2)]
    refine ⟨rfl, rfl, rfl, rfl, ?_, rfl, rfl, rfl, le_refl _⟩
    simp [hh, hnr, h2]

/-- The success path of `SetItem` on a well-formed published root: the
call returns nil, installs the freshly allocated rootNodeLoc (id
`s.nextR`) whose tree is the union of the old tree with the singleton and
whose `reclaimLater[0]` holds the singleton node, and the new rootNodeLoc
stays referenced. -/
theorem setItem_success (s : CollState) (item : Item) (rid : Nat)
    (hroot : s.root = some rid) (hfresh : rid < s.nextR)
    (hrefs : 1 ≤ (s.heap rid).refs)
    (hnc : (s.heap rid).chainedCollection = false)
    (hnr : (s.heap rid).chainedRootNodeLoc = none)
    (hv1 : ¬ (item.key = none ∨ (item.key.getD []).length > 0xffff ∨
      (item.key.getD []).length = 0 ∨ item.val = none))
    (hv2 : ¬ item.priority < 0) :
    (SetItem s item).1 = .ok () ∧
    (SetItem s item).2.root = some s.nextR ∧
    ((SetItem s item).2.heap s.nextR).rootTree =
      union (s.heap rid).rootTree (mkN item .empty .empty) ∧
    ((SetItem s item).2.heap s.nextR).reclaimLater0 =
      some (mkN item .empty .empty) ∧
    1 ≤ ((SetItem s item).2.heap s.nextR).refs := by
  have hne : rid ≠ s.nextR := Nat.ne_of_lt hfresh
  simp only [SetItem, if_neg hv1, if_neg hv2, hroot]
  set n := mkN item .empty .empty with hn
  set s0 := bumpRef s rid with hs0
  set r := union ((s0.heap rid)).rootTree n with hr
  set alloc := mkRootNodeLocS s0 r none with halloc
  set s2 := setReclaim0 alloc.2 alloc.1 (some n) with hs2
  have halloc1 : alloc.1 = s.nextR := rfl
  have hs0rid : s0.heap rid = { s.heap rid with
      refs := (s.heap rid).refs + 1 } := by
    rw [hs0]; exact bumpRef_heap_same s rid
  have htr : r = union (s.heap rid).rootTree n := by
    rw [hr, hs0rid]
  have hallocrid : alloc.2.heap rid = s0.heap rid := by
    have := updateHeap_heap_other s0 s0.nextR
      ⟨1, r, none, false, none, none, none⟩ rid hne
    exact this
  have hallocself : alloc.2.heap alloc.1 =
      ⟨1, r, none, false, none, none, none⟩ := by
    have := updateHeap_heap_same s0 s0.nextR
      ⟨1, r, none, false, none, none, none⟩
    exact this
  have hs2rid : s2.heap rid = { s.heap rid with
      refs := (s.heap rid).refs + 1 } := by
    have h1 : s2.heap rid = alloc.2.heap rid :=
      updateHeap_heap_other alloc.2 alloc.1 _ rid (by rw [halloc1]; exact hne)
    rw [h1, hallocrid, hs0rid]
  have hs2self : s2.heap alloc.1 =
      ⟨1, r, none, false, none, some n, none⟩ := by
    have h1 : s2.heap alloc.1 =
        { alloc.2.heap alloc.1 with reclaimLater0 := some n } :=
      updateHeap_heap_same alloc.2 alloc.1 _
    rw [h1, hallocself]
  have hs2root : s2.root = some rid := hroot
  have hcas := rootCAS_ok_state s2 rid alloc.1
    (by rw [halloc1]; exact Ne.symm hne) hs2root
    (by rw [hs2rid]; exact hnc) (by rw [hs2rid]; exact hnr)
  set c2 := (rootCAS s2 (some rid) alloc.1).2 with hc2
  rw [hcas.1]
  dsimp only
  have hc2refs : (c2.heap rid).refs = (s.heap rid).refs + 1 := by
    rw [hcas.2.2.2.1, hs2rid]
  have hc2chain : (c2.heap rid).chainedRootNodeLoc =
      (if (s.heap rid).refs + 1 > 2 then some alloc.1 else none) := by
    rw [hcas.2.2.2.2.1, hs2rid]
  have hs4 : heapDecRef (c2.nextR + 1) c2 rid =
      updateHeap c2 rid { c2.heap rid with
        refs := (c2.heap rid).refs - 1 } :=
    heapDecRef_step _ _ _ (Or.inl (by rw [hc2refs]; omega))
  rw [hs4]
  set s4 := updateHeap c2 rid
    { c2.heap rid with refs := (c2.heap rid).refs - 1 } with hs4d
  have hs4rid : s4.heap rid = { c2.heap rid with
      refs := (c2.heap rid).refs - 1 } := by
    rw [hs4d]; exact updateHeap_heap_same c2 rid _
  have hs5 : heapDecRef (s4.nextR + 1) s4 rid =
      updateHeap s4 rid { s4.heap rid with
        refs := (s4.heap rid).refs - 1 } := by
    refine heapDecRef_step _ _ _ ?_
    by_cases hR : 2 ≤ (s.heap rid).refs
    · exact Or.inl (by rw [hs4rid]; simp only []; rw [hc2refs]; omega)
    · refine Or.inr ?_
      have hR1 : (s.heap rid).refs = 1 := by omega
      rw [hs4rid]
      have : ({ c2.heap rid with
          refs := (c2.heap rid).refs - 1 }).chainedRootNodeLoc =
        (c2.heap rid).chainedRootNodeLoc := rfl
      rw [this, hc2chain, hR1]
      norm_num
  rw [hs5]
  have hroot5 : (updateHeap s4 rid { s4.heap rid with
      refs := (s4.heap rid).refs - 1 }).root = some s.nextR := by
    show s4.root = some s.nextR
    rw [hs4d]
    show c2.root = some s.nextR
    rw [hc2, hcas.2.1, halloc1]
  have hheap5 : (updateHeap s4 rid { s4.heap rid with
      refs := (s4.heap rid).refs - 1 }).heap s.nextR = c2.heap alloc.1 := by
    rw [updateHeap_heap_other _ _ _ _ (Ne.symm hne)]
    rw [hs4d, updateHeap_heap_other _ _ _ _ (Ne.symm hne), halloc1]
  refine ⟨rfl, hroot5, ?_, ?_, ?_⟩
  · rw [hheap5, hcas.2.2.2.2.2.1, hs2self, htr]
  · rw [hheap5, hcas.2.2.2.2.2.2.1, hs2self]
  · have := hcas.2.2.2.2.2.2.2.2
    rw [hheap5]
    rw [hs2self] at this
    exact le_trans (by norm_num) this

/-- A failed `rootCAS` returns the state unchanged. -/
theorem rootCAS_failed_state (s : CollState) (prev : Option Nat) (next : Nat)
    (h : (rootCAS s prev next).1 = .failed) :
    (rootCAS s prev next).2 = s := by
  by_cases hr : s.root = prev
  · exact absurd h (rootCAS_not_failed s prev next hr)
  · simp [rootCAS, hr]

/-- C3: on a well-formed collection, a successful `Set(k, v)` followed by
`Get(k)` with no intervening mutation returns exactly `v`: the set
succeeds and the get finds the inserted value. -/
theorem C3_get_after_set (s : CollState) (k v : List Nat) (p : Int)
    (rid : Nat) (hroot : s.root = some rid) (hfresh : rid < s.nextR)
    (hrefs : 1 ≤ (s.heap rid).refs)
    (hnc : (s.heap rid).chainedCollection = false)
    (hnr : (s.heap rid).chainedRootNodeLoc = none)
    (hwf : WFTree (s.heap rid).rootTree = true)
    (hk0 : k ≠ []) (hklen : k.length ≤ 65535) (hp : 0 ≤ p) :
    (SetOp s k v p).1 = .ok () ∧
    GetOp (SetOp s k v p).2 k = .ok (some v) := by
  have hv1 : ¬ ((⟨some k, some v, p⟩ : Item).key = none ∨
      (((⟨some k, some v, p⟩ : Item).key).getD []).length > 0xffff ∨
      (((⟨some k, some v, p⟩ : Item).key).getD []).length = 0 ∨
      (⟨some k, some v, p⟩ : Item).val = none) := by
    push_neg
    refine ⟨by simp, ?_, ?_, by simp⟩
    · simpa using hklen
    · simpa using hk0
  have hv2 : ¬ ((⟨some k, some v, p⟩ : Item).priority < 0) := not_lt.mpr hp
  have h := setItem_success s ⟨some k, some v, p⟩ rid hroot hfresh hrefs hnc
    hnr hv1 hv2
  refine ⟨h.1, ?_⟩
  show GetOp (SetItem s ⟨some k, some v, p⟩).2 k = .ok (some v)
  unfold GetOp
  rw [h.2.1]
  dsimp only
  rw [h.2.2.1]
  rw [show mkN (⟨some k, some v, p⟩ : Item) .empty .empty =
    NTree.node ⟨some k, some v, p⟩ 1
      ((⟨some k, some v, p⟩ : Item).numKeyBytes +
        (⟨some k, some v, p⟩ : Item).numValBytes) .empty .empty from rfl]
  rw [getNTree_union_single (s.heap rid).rootTree ⟨some k, some v, p⟩ k _
    rfl hwf]

/-- Witness for C3: setting key `[1]` to value `[2]` on a concrete empty
collection succeeds, and `Get([1])` then returns `[2]`. -/
theorem C3_get_after_set_witness :
    (SetOp ⟨fun _ => ⟨1, .empty, none, false, none, none, none⟩,
        some 0, 1⟩ [1] [2] 0).1 = .ok () ∧
    GetOp (SetOp ⟨fun _ => ⟨1, .empty, none, false, none, none, none⟩,
        some 0, 1⟩ [1] [2] 0).2 [1] = .ok (some [2]) := by
  exact C3_get_after_set
    ⟨fun _ => ⟨1, .empty, none, false, none, none, none⟩, some 0, 1⟩
    [1] [2] 0 0 rfl (by decide) (by decide) rfl rfl (by decide)
    (by decide) (by decide) (by decide)

/-- C4: an operation that returns an error leaves the published root
untouched: whenever `SetItem` or `Delete` returns an error — validation
failure, a lost CAS, concurrent-delete detection, or an operation on a
closed collection — the collection's root still refers to the same
rootNodeLoc as before the call and no new rootNodeLoc is installed. (The
`panicChain` outcome is excluded: it models a Go `panic`, which is not an
error return.) -/
theorem C4_error_no_mutation (s : CollState) (item : Item) (key : List Nat)
    (e₁ e₂ : Err) (hp1 : e₁ ≠ .panicChain) (hp2 : e₂ ≠ .panicChain) :
    ((SetItem s item).1 = .error e₁ → (SetItem s item).2.root = s.root) ∧
    ((DeleteOp s key).1.1 = .error e₂ →
      (DeleteOp s key).1.2.root = s.root) := by
  constructor
  · intro herr
    by_cases hv1 : item.key = none ∨ (item.key.getD []).length > 0xffff ∨
        (item.key.getD []).length = 0 ∨ item.val = none
    · simp only [SetItem, if_pos hv1]
    · by_cases hv2 : item.priority < 0
      · simp only [SetItem, if_neg hv1, if_pos hv2]
      · simp only [SetItem, if_neg hv1, if_neg hv2] at herr ⊢
        cases hroot : s.root with
        | none =>
          dsimp only
          exact hroot
        | some rid =>
          rw [hroot] at herr
          dsimp only at herr ⊢
          split at herr
          · next heq =>
            exact absurd heq (rootCAS_not_failed _ _ _ hroot)
          · dsimp only at herr
            exact absurd (Except.error.inj herr).symm hp1
          · dsimp only at herr
            exact Except.noConfusion herr
  · intro herr
    simp only [DeleteOp] at herr ⊢
    cases hroot : s.root with
    | none =>
      dsimp only
      exact hroot
    | some rid =>
      rw [hroot] at herr
      dsimp only at herr ⊢
      split at herr
      · dsimp only
        rw [heapDecRef_root]
        exact hroot
      · dsimp only at herr
        exact Except.noConfusion herr
      · split at herr
        · dsimp only
          rw [heapDecRef_root]
          exact hroot
        · next mi hm =>
          split at herr
          · next hc =>
            dsimp only
            rw [heapDecRef_root, rootCAS_failed_state _ _ _ hc]
            split
            · split <;> exact hroot
            · split <;> exact hroot
          · dsimp only at herr
            exact absurd (Except.error.inj herr).symm hp2
          · dsimp only at herr
            exact Except.noConfusion herr

theorem union_empty_left (b : NTree) : union .empty b = b := by
  cases b <;> simp [union]

theorem subtreeOf_self (t : NTree) : subtreeOf t t = true := by
  cases t <;> simp [subtreeOf]

/-- Counterexample to C7 as stated: on an empty collection, `SetItem`
stores the freshly built singleton node into the new rootNodeLoc's
`reclaimLater[0]` while `union` returns that very node as the new root —
so the live rootNodeLoc (refs ≥ 1) holds a `reclaimLater` node that IS
reachable from (indeed, is) its root. -/
theorem C7_reclaim_reachable_counterexample :
    1 ≤ ((SetOp ⟨fun _ => ⟨1, .empty, none, false, none, none, none⟩,
        some 0, 1⟩ [1] [2] 5).2.heap 1).refs ∧
    (SetOp ⟨fun _ => ⟨1, .empty, none, false, none, none, none⟩,
        some 0, 1⟩ [1] [2] 5).2.root = some 1 ∧
    ((SetOp ⟨fun _ => ⟨1, .empty, none, false, none, none, none⟩,
        some 0, 1⟩ [1] [2] 5).2.heap 1).reclaimLater0 =
      some (mkN ⟨some [1], some [2], 5⟩ .empty .empty) ∧
    subtreeOf (mkN ⟨some [1], some [2], 5⟩ .empty .empty)
      ((SetOp ⟨fun _ => ⟨1, .empty, none, false, none, none, none⟩,
        some 0, 1⟩ [1] [2] 5).2.heap 1).rootTree = true := by
  have h := setItem_success
    ⟨fun _ => ⟨1, .empty, none, false, none, none, none⟩, some 0, 1⟩
    ⟨some [1], some [2], 5⟩ 0 rfl (by decide) (by decide) rfl rfl
    (by decide) (by decide)
  refine ⟨h.2.2.2.2, h.2.1, h.2.2.2.1, ?_⟩
  have h3 : ((SetOp ⟨fun _ => ⟨1, .empty, none, false, none, none, none⟩,
      some 0, 1⟩ [1] [2] 5).2.heap 1).rootTree =
      mkN ⟨some [1], some [2], 5⟩ .empty .empty := by
    have h2 := h.2.2.1
    rw [show ((⟨fun _ => ⟨1, .empty, none, false, none, none, none⟩,
      some 0, 1⟩ : CollState).heap 0).rootTree = NTree.empty from rfl,
      union_empty_left] at h2
    exact h2
  rw [h3]
  exact subtreeOf_self _

/-- C7 (amended): a node stored in a live rootNodeLoc's `reclaimLater`
may still be reachable from that rootNodeLoc's root; in particular the
singleton that `SetItem` stores into `reclaimLater[0]` is reachable from
the new root whenever the displaced root was empty (the union returns the
singleton itself as the new root); reclamation relies on the tree walk
skipping nodes listed in `reclaimLater`. -/
theorem C7_amended_reclaim_reachable (s : CollState) (k v : List Nat)
    (p : Int) (rid : Nat) (hroot : s.root = some rid)
    (hfresh : rid < s.nextR) (hrefs : 1 ≤ (s.heap rid).refs)
    (hnc : (s.heap rid).chainedCollection = false)
    (hnr : (s.heap rid).chainedRootNodeLoc = none)
    (hempty : (s.heap rid).rootTree = .empty)
    (hk0 : k ≠ []) (hklen : k.length ≤ 65535) (hp : 0 ≤ p) :
    ((SetOp s k v p).2.heap s.nextR).reclaimLater0 =
      some (mkN ⟨some k, some v, p⟩ .empty .empty) ∧
    1 ≤ ((SetOp s k v p).2.heap s.nextR).refs ∧
    subtreeOf (mkN ⟨some k, some v, p⟩ .empty .empty)
      ((SetOp s k v p).2.heap s.nextR).rootTree = true := by
  have hv1 : ¬ ((⟨some k, some v, p⟩ : Item).key = none ∨
      (((⟨some k, some v, p⟩ : Item).key).getD []).length > 0xffff ∨
      (((⟨some k, some v, p⟩ : Item).key).getD []).length = 0 ∨
      (⟨some k, some v, p⟩ : Item).val = none) := by
    push_neg
    refine ⟨by simp, ?_, ?_, by simp⟩
    · simpa using hklen
    · simpa using hk0
  have hv2 : ¬ ((⟨some k, some v, p⟩ : Item).priority < 0) := not_lt.mpr hp
  have h := setItem_success s ⟨some k, some v, p⟩ rid hroot hfresh hrefs hnc
    hnr hv1 hv2
  refine ⟨h.2.2.2.1, h.2.2.2.2, ?_⟩
  have h3 : ((SetOp s k v p).2.heap s.nextR).rootTree =
      mkN ⟨some k, some v, p⟩ .empty .empty := by
    have h2 := h.2.2.1
    rw [hempty, union_empty_left] at h2
    exact h2
  rw [h3]
  exact subtreeOf_self _

/-- Witness for the amended C7: the concrete empty collection again,
through the amended theorem. -/
theorem C7_amended_reclaim_reachable_witness :
    ((SetOp ⟨fun _ => ⟨1, .empty, none, false, none, none, none⟩,
        some 0, 1⟩ [3] [4] 2).2.heap 1).reclaimLater0 =
      some (mkN ⟨some [3], some [4], 2⟩ .empty .empty) ∧
    subtreeOf (mkN ⟨some [3], some [4], 2⟩ .empty .empty)
      ((SetOp ⟨fun _ => ⟨1, .empty, none, false, none, none, none⟩,
        some 0, 1⟩ [3] [4] 2).2.heap 1).rootTree = true := by
  have h := C7_amended_reclaim_reachable
    ⟨fun _ => ⟨1, .empty, none, false, none, none, none⟩, some 0, 1⟩
    [3] [4] 2 0 rfl (by decide) (by decide) rfl rfl rfl (by decide)
    (by decide) (by decide)
  exact ⟨h.1, h.2.2⟩

/-- Witness for C4: on a closed collection (nil root) both `SetItem` and
`Delete` return an error and leave the nil root in place; a validation
error likewise leaves the root alone. -/
theorem C4_error_no_mutation_witness :
    (SetItem ⟨fun _ => ⟨1, .empty, none, false, none, none, none⟩, none, 1⟩
        ⟨some [1], some [2], 0⟩).1 = .error .nilRoot ∧
    (SetItem ⟨fun _ => ⟨1, .empty, none, false, none, none, none⟩, none, 1⟩
        ⟨some [1], some [2], 0⟩).2.root = none ∧
    (DeleteOp ⟨fun _ => ⟨1, .empty, none, false, none, none, none⟩, none, 1⟩
        [1]).1.1 = .error .nilRoot ∧
    (DeleteOp ⟨fun _ => ⟨1, .empty, none, false, none, none, none⟩, none, 1⟩
        [1]).1.2.root = none := by
  refine ⟨rfl, ?_, rfl, ?_⟩
  · exact (C4_error_no_mutation
      ⟨fun _ => ⟨1, .empty, none, false, none, none, none⟩, none, 1⟩
      ⟨some [1], some [2], 0⟩ [1] .nilRoot .nilRoot (by decide)
      (by decide)).1 rfl
  · exact (C4_error_no_mutation
      ⟨fun _ => ⟨1, .empty, none, false, none, none, none⟩, none, 1⟩
      ⟨some [1], some [2], 0⟩ [1] .nilRoot .nilRoot (by decide)
      (by decide)).2 rfl

/-- C5: `Delete` looks the key up first and returns `(false, nil)` when it
is absent; when it was observed present it splits on the key — an empty
middle yields the concurrent-delete error — and otherwise marks the middle
node reclaimable, joins the outer parts, publishes the join via root CAS,
stores the non-empty left/right split roots in the new rootNodeLoc's
`reclaimLater` slots 0 and 1, and returns `true`. -/
theorem C5_delete_spec (s : CollState) (key : List Nat) (rid : Nat)
    (hroot : s.root = some rid) (hfresh : rid < s.nextR)
    (hrefs : 1 ≤ (s.heap rid).refs)
    (hnc : (s.heap rid).chainedCollection = false)
    (hnr : (s.heap rid).chainedRootNodeLoc = none) :
    (getNTree (s.heap rid).rootTree key = .ok none →
      (DeleteOp s key).1.1 = .ok false ∧
      (DeleteOp s key).1.2.root = s.root) ∧
    (∀ i, getNTree (s.heap rid).rootTree key = .ok (some i) →
      ((split (s.heap rid).rootTree key).2.1 = none →
        (DeleteOp s key).1.1 = .error .concurrentDelete ∧
        (DeleteOp s key).1.2.root = s.root) ∧
      (∀ mi, (split (s.heap rid).rootTree key).2.1 = some mi →
        (DeleteOp s key).1.1 = .ok true ∧
        (DeleteOp s key).2 = [.markReclaimable mi] ∧
        (DeleteOp s key).1.2.root = some s.nextR ∧
        ((DeleteOp s key).1.2.heap s.nextR).rootTree =
          tjoin (split (s.heap rid).rootTree key).1
            (split (s.heap rid).rootTree key).2.2 ∧
        ((DeleteOp s key).1.2.heap s.nextR).reclaimLater0 =
          (if (split (s.heap rid).rootTree key).1 = .empty then none
           else some (split (s.heap rid).rootTree key).1) ∧
        ((DeleteOp s key).1.2.heap s.nextR).reclaimLater1 =
          (if (split (s.heap rid).rootTree key).2.2 = .empty then none
           else some (split (s.heap rid).rootTree key).2.2))) := by
  have hne : rid ≠ s.nextR := Nat.ne_of_lt hfresh
  have hTR : ((bumpRef s rid).heap rid).rootTree = (s.heap rid).rootTree := by
    rw [bumpRef_heap_same]
  simp only [DeleteOp, hroot]
  rw [hTR]
  constructor
  · intro hg
    rw [hg]
    dsimp only
    exact ⟨rfl, by rw [heapDecRef_root]; exact hroot⟩
  · intro i hg
    rw [hg]
    dsimp only
    constructor
    · intro hm
      rw [hm]
      dsimp only
      exact ⟨rfl, by rw [heapDecRef_root]; exact hroot⟩
    · intro mi hm
      rw [hm]
      dsimp only
      set sp1 := (split (s.heap rid).rootTree key).1 with hsp1
      set sp3 := (split (s.heap rid).rootTree key).2.2 with hsp3
      set j := tjoin sp1 sp3 with hj
      set s0 := bumpRef s rid with hs0
      set alloc := mkRootNodeLocS s0 j none with halloc
      set s2 := (if sp1 ≠ NTree.empty then
        setReclaim0 alloc.2 alloc.1 (some sp1) else alloc.2) with hs2
      set s3 := (if sp3 ≠ NTree.empty then
        setReclaim1 s2 alloc.1 (some sp3) else s2) with hs3
      have halloc1 : alloc.1 = s.nextR := rfl
      have hs0rid : s0.heap rid = { s.heap rid with
          refs := (s.heap rid).refs + 1 } := by
        rw [hs0]; exact bumpRef_heap_same s rid
      have hallocrid : alloc.2.heap rid = s0.heap rid := by
        have := updateHeap_heap_other s0 s0.nextR
          ⟨1, j, none, false, none, none, none⟩ rid hne
        exact this
      have hallocself : alloc.2.heap alloc.1 =
          ⟨1, j, none, false, none, none, none⟩ := by
        have := updateHeap_heap_same s0 s0.nextR
          ⟨1, j, none, false, none, none, none⟩
        exact this
      have hs2root : s2.root = some rid := by
        rw [hs2]; split <;> exact hroot
      have hs3root : s3.root = some rid := by
        rw [hs3]; split <;> exact hs2root
      have hs2rid : s2.heap rid = { s.heap rid with
          refs := (s.heap rid).refs + 1 } := by
        rw [hs2]
        split
        · have h1 := updateHeap_heap_other alloc.2 alloc.1
            { alloc.2.heap alloc.1 with reclaimLater0 := some sp1 } rid
            (by rw [halloc1]; exact hne)
          rw [show (setReclaim0 alloc.2 alloc.1 (some sp1)).heap rid =
            alloc.2.heap rid from h1, hallocrid, hs0rid]
        · rw [hallocrid, hs0rid]
      have hs3rid : s3.heap rid = { s.heap rid with
          refs := (s.heap rid).refs + 1 } := by
        rw [hs3]
        split
        · have h1 := updateHeap_heap_other s2 alloc.1
            { s2.heap alloc.1 with reclaimLater1 := some sp3 } rid
            (by rw [halloc1]; exact hne)
          rw [show (setReclaim1 s2 alloc.1 (some sp3)).heap rid =
            s2.heap rid from h1, hs2rid]
        · exact hs2rid
      have hs2self : s2.heap alloc.1 = ⟨1, j, none, false, none,
          (if sp1 = NTree.empty then none else some sp1), none⟩ := by
        rw [hs2]
        by_cases hl : sp1 = NTree.empty
        · rw [if_neg (not_not_intro hl), if_pos hl]
          exact hallocself
        · rw [if_pos hl, if_neg hl]
          have h1 := updateHeap_heap_same alloc.2 alloc.1
            { alloc.2.heap alloc.1 with reclaimLater0 := some sp1 }
          rw [show (setReclaim0 alloc.2 alloc.1 (some sp1)).heap alloc.1 =
            { alloc.2.heap alloc.1 with reclaimLater0 := some sp1 } from h1,
            hallocself]
      have hs3self : s3.heap alloc.1 = ⟨1, j, none, false, none,
          (if sp1 = NTree.empty then none else some sp1),
          (if sp3 = NTree.empty then none else some sp3)⟩ := by
        rw [hs3]
        by_cases hr : sp3 = NTree.empty
        · rw [if_neg (not_not_intro hr), if_pos hr]
          exact hs2self
        · rw [if_pos hr, if_neg hr]
          have h1 := updateHeap_heap_same s2 alloc.1
            { s2.heap alloc.1 with reclaimLater1 := some sp3 }
          rw [show (setReclaim1 s2 alloc.1 (some sp3)).heap alloc.1 =
            { s2.heap alloc.1 with reclaimLater1 := some sp3 } from h1,
            hs2self]
      have hcas := rootCAS_ok_state s3 rid alloc.1
        (by rw [halloc1]; exact Ne.symm hne) hs3root
        (by rw [hs3rid]; exact hnc) (by rw [hs3rid]; exact hnr)
      set c2 := (rootCAS s3 (some rid) alloc.1).2 with hc2
      rw [hcas.1]
      dsimp only
      have hc2refs : (c2.heap rid).refs = (s.heap rid).refs + 1 := by
        rw [hcas.2.2.2.1, hs3rid]
      have hc2chain : (c2.heap rid).chainedRootNodeLoc =
          (if (s.heap rid).refs + 1 > 2 then some alloc.1 else none) := by
        rw [hcas.2.2.2.2.1, hs3rid]
      have hs4 : heapDecRef (c2.nextR + 1) c2 rid =
          updateHeap c2 rid { c2.heap rid with
            refs := (c2.heap rid).refs - 1 } :=
        heapDecRef_step _ _ _ (Or.inl (by rw [hc2refs]; omega))
      rw [hs4]
      set s4 := updateHeap c2 rid
        { c2.heap rid with refs := (c2.heap rid).refs - 1 } with hs4d
      have hs4rid : s4.heap rid = { c2.heap rid with
          refs := (c2.heap rid).refs - 1 } := by
        rw [hs4d]; exact updateHeap_heap_same c2 rid _
      have hs5 : heapDecRef (s4.nextR + 1) s4 rid =
          updateHeap s4 rid { s4.heap rid with
            refs := (s4.heap rid).refs - 1 } := by
        refine heapDecRef_step _ _ _ ?_
        by_cases hR : 2 ≤ (s.heap rid).refs
        · exact Or.inl (by rw [hs4rid]; simp only []; rw [hc2refs]; omega)
        · refine Or.inr ?_
          have hR1 : (s.heap rid).refs = 1 := by omega
          rw [hs4rid]
          have hx : ({ c2.heap rid with
              refs := (c2.heap rid).refs - 1 }).chainedRootNodeLoc =
            (c2.heap rid).chainedRootNodeLoc := rfl
          rw [hx, hc2chain, hR1]
          norm_num
      rw [hs5]
      have hheap5 : (updateHeap s4 rid { s4.heap rid with
          refs := (s4.heap rid).refs - 1 }).heap s.nextR =
          c2.heap alloc.1 := by
        rw [updateHeap_heap_other _ _ _ _ (Ne.symm hne)]
        rw [hs4d, updateHeap_heap_other _ _ _ _ (Ne.symm hne), halloc1]
      have hroot5 : (updateHeap s4 rid { s4.heap rid with
          refs := (s4.heap rid).refs - 1 }).root = some s.nextR := by
        show s4.root = some s.nextR
        rw [hs4d]
        show c2.root = some s.nextR
        rw [hc2, hcas.2.1, halloc1]
      refine ⟨rfl, rfl, hroot5, ?_, ?_, ?_⟩
      · rw [hheap5, hcas.2.2.2.2.2.1, hs3self]
      · rw [hheap5, hcas.2.2.2.2.2.2.1, hs3self]
      · rw [hheap5, hcas.2.2.2.2.2.2.2.1, hs3self]

/-- Witness for C5: deleting an absent key from a concrete empty
collection returns `(false, nil)` with the root untouched; deleting the
only key of a one-item collection returns `true`, marks that node
reclaimable, and publishes a fresh root. -/
theorem C5_delete_spec_witness :
    (DeleteOp ⟨fun _ => ⟨1, .empty, none, false, none, none, none⟩,
        some 0, 1⟩ [9]).1.1 = .ok false ∧
    (DeleteOp ⟨fun _ => ⟨1, .empty, none, false, none, none, none⟩,
        some 0, 1⟩ [9]).1.2.root = some 0 ∧
    (DeleteOp ⟨fun _ => ⟨1,
        .node ⟨some [7], some [8], 4⟩ 1 2 .empty .empty,
        none, false, none, none, none⟩, some 0, 1⟩ [7]).1.1 = .ok true ∧
    (DeleteOp ⟨fun _ => ⟨1,
        .node ⟨some [7], some [8], 4⟩ 1 2 .empty .empty,
        none, false, none, none, none⟩, some 0, 1⟩ [7]).2 =
      [.markReclaimable ⟨some [7], some [8], 4⟩] ∧
    (DeleteOp ⟨fun _ => ⟨1,
        .node ⟨some [7], some [8], 4⟩ 1 2 .empty .empty,
        none, false, none, none, none⟩, some 0, 1⟩ [7]).1.2.root =
      some 1 := by
  have h1 := (C5_delete_spec
    ⟨fun _ => ⟨1, .empty, none, false, none, none, none⟩, some 0, 1⟩
    [9] 0 rfl (by decide) (by decide) rfl rfl).1 rfl
  have h2 := ((C5_delete_spec ⟨fun _ => ⟨1,
      .node ⟨some [7], some [8], 4⟩ 1 2 .empty .empty,
      none, false, none, none, none⟩, some 0, 1⟩
    [7] 0 rfl (by decide) (by decide) rfl rfl).2
    ⟨some [7], some [8], 4⟩ rfl).2 ⟨some [7], some [8], 4⟩ rfl
  exact ⟨h1.1, h1.2, h2.1, h2.2.1, h2.2.2.1⟩

end Gkvlite
